import Mathlib

/-!
Verification of the proprietary-snippet excision engine of
`src/resources/scripts/ossify.py` (Stalwart SEL code remover).

Python strings are modelled as `List Char`; a file's content is one such
list and its line decomposition is computed by `splitNL` (Python
`str.split('\n')`) and recombined by `joinNL` (Python `'\n'.join`).
Substring containment (Python `needle in haystack`) is `sub`, built from
the prefix test `pfx` (Python `str.startswith`).

The scanning `while` loop of `remove_proprietary_snippets` is embedded as
`scanF`, a function structurally recursive on an iteration budget; the
budget `ls.length` is proved sufficient (`scanF_fuel`), and `scan_cons`
is the loop's step equation, matching the Python loop body line by line.
-/

/-- Characters removed by Python `str.strip()` (ASCII whitespace). -/
def isPySpace (c : Char) : Bool :=
  c == ' ' || c == '\t' || c == '\n' || c == '\r' || c == '\x0b' || c == '\x0c'

/-- Python `str.strip()`: drop leading and trailing whitespace. -/
def pyStrip (s : List Char) : List Char :=
  ((s.dropWhile isPySpace).reverse.dropWhile isPySpace).reverse

/-- Python `content.split('\n')`: split on newline characters.
On the empty string this yields `[[]]`, exactly as `''.split('\n') == ['']`. -/
def splitNL : List Char → List (List Char)
  | [] => [[]]
  | c :: cs =>
    if c = '\n' then [] :: splitNL cs
    else
      match splitNL cs with
      | [] => [[c]]
      | l :: ls => (c :: l) :: ls

/-- Python `'\n'.join(lines)`. -/
def joinNL : List (List Char) → List Char
  | [] => []
  | [l] => l
  | l :: l2 :: ls => l ++ '\n' :: joinNL (l2 :: ls)

/-- Python `haystack.startswith(needle)` on character lists. -/
def pfx : List Char → List Char → Bool
  | [], _ => true
  | _ :: _, [] => false
  | a :: as, b :: bs => a == b && pfx as bs

/-- Python `needle in haystack` (substring containment) on character lists. -/
def sub (m : List Char) : List Char → Bool
  | [] => m.isEmpty
  | c :: cs => pfx m (c :: cs) || sub m cs

/-- Literal `'// SPDX-SnippetBegin'` from the source. -/
def snippetBeginMarker : List Char := "// SPDX-SnippetBegin".toList

/-- Literal `'// SPDX-SnippetEnd'` from the source. -/
def snippetEndMarker : List Char := "// SPDX-SnippetEnd".toList

/-- Literal `'SPDX-License-Identifier: LicenseRef-SEL'` from the source. -/
def selMarker : List Char := "SPDX-License-Identifier: LicenseRef-SEL".toList

/-- Literal `'/*'` from the source. -/
def blockOpenTok : List Char := "/*".toList

/-- Literal `'*/'` from the source. -/
def blockCloseTok : List Char := "*/".toList

/-- Literal `'//'` from the source. -/
def lineTok : List Char := "//".toList

/-- Test `'// SPDX-SnippetBegin' in line`. -/
def hasBegin (l : List Char) : Bool := sub snippetBeginMarker l

/-- Test `'// SPDX-SnippetEnd' in line`. -/
def hasEnd (l : List Char) : Bool := sub snippetEndMarker l

/-- Test `'SPDX-License-Identifier: LicenseRef-SEL' in '\n'.join(span)`. -/
def hasSEL (ls : List (List Char)) : Bool := sub selMarker (joinNL ls)

/-- The inner span-collection loop of `remove_proprietary_snippets`
(lines 105-109 of ossify.py): starting at the current line, append lines
until (and including) the first line containing the end marker; returns
the collected span together with the lines after it.  When no end marker
occurs, the span runs to end-of-file and the remainder is empty. -/
def collectSpan : List (List Char) → List (List Char) × List (List Char)
  | [] => ([], [])
  | l :: ls =>
    if hasEnd l then ([l], ls)
    else ((l :: (collectSpan ls).1), (collectSpan ls).2)

/-- The outer `while i < len(lines)` loop of `remove_proprietary_snippets`
(lines 98-129 of ossify.py), recursing on the suffix of unprocessed lines
with an explicit iteration budget (first argument).  A line containing the
begin marker starts a candidate span (`collectSpan`); if the span's joined
text contains the license marker the whole span is skipped and the count
is incremented (`i = j + 1; continue`), otherwise only the begin line is
emitted and scanning resumes at the next line (`result_lines.append(line);
i += 1`); a line without the begin marker is emitted unchanged. -/
def scanF : Nat → List (List Char) → List (List Char) × Nat
  | _, [] => ([], 0)
  | 0, _ :: _ => ([], 0)
  | n + 1, l :: ls =>
    if hasBegin l then
      if hasSEL (collectSpan (l :: ls)).1 then
        ((scanF n (collectSpan (l :: ls)).2).1, (scanF n (collectSpan (l :: ls)).2).2 + 1)
      else (l :: (scanF n ls).1, (scanF n ls).2)
    else (l :: (scanF n ls).1, (scanF n ls).2)

/-- The scanning loop run with its (sufficient, see `scanF_fuel`) budget:
one outer-loop iteration consumes at least one line, so `ls.length`
iterations always complete the scan. -/
def scan (ls : List (List Char)) : List (List Char) × Nat := scanF ls.length ls

/-- Function `remove_proprietary_snippets(content)` from ossify.py: split into
lines, run the scan, and return the rejoined text with the number of
snippets removed. -/
def remove_proprietary_snippets (content : List Char) : List Char × Nat :=
  (joinNL (scan (splitNL content)).1, (scan (splitNL content)).2)

/-- The `/* ... */` branch of `find_first_comment_block`: collect lines
from the start through the first line containing `*/` (all lines if none
occurs).  The Python loop appends each line and breaks after appending
the line that contains the close token. -/
def takeBlock : List (List Char) → List (List Char)
  | [] => []
  | l :: ls => if sub blockCloseTok l then [l] else l :: takeBlock ls

/-- The `//` branch of `find_first_comment_block`: collect leading lines
whose stripped form starts with `//` or is empty, stopping at (and
excluding) the first line that is neither. -/
def takeLineRun : List (List Char) → List (List Char)
  | [] => []
  | l :: ls =>
    if pfx lineTok (pyStrip l) || (pyStrip l).isEmpty then l :: takeLineRun ls
    else []

/-- Function `find_first_comment_block(content)` from ossify.py (lines 20-61):
strip the whole content, split into lines, and dispatch on the first
line.  The `if not lines` guard of the source is the `[]` branch (it is
unreachable, since Python `split` never returns an empty list, but it is
embedded faithfully). -/
def find_first_comment_block (content : List Char) : Option (List Char) :=
  match splitNL (pyStrip content) with
  | [] => none
  | l0 :: rest =>
    if pfx blockOpenTok (pyStrip l0) then some (joinNL (takeBlock (l0 :: rest)))
    else if pfx lineTok (pyStrip l0) then some (joinNL (takeLineRun (l0 :: rest)))
    else none

/-- The comment-block detector as the spec states it (for claim C7): the
block branch returns the lines up to and including the first line
containing the close token -- located by index -- or every line when no
close token occurs; the line branch returns the maximal leading run
(`takeWhile`) of lines whose trimmed form starts with the line-comment
token or is empty. -/
def find_first_comment_block_spec (content : List Char) : Option (List Char) :=
  match splitNL (pyStrip content) with
  | [] => none
  | l0 :: rest =>
    if pfx blockOpenTok (pyStrip l0) then
      some (joinNL (((l0 :: rest).findIdx? (fun l => sub blockCloseTok l)).elim
        (l0 :: rest) (fun k => (l0 :: rest).take (k + 1))))
    else if pfx lineTok (pyStrip l0) then
      some (joinNL ((l0 :: rest).takeWhile
        (fun l => pfx lineTok (pyStrip l) || (pyStrip l).isEmpty)))
    else none

/-- Outcome of reading a file: the decoded content, or a read failure
(the `except Exception` arm of `should_remove_file`). -/
inductive ReadResult where
  | ok (content : List Char)
  | err
deriving DecidableEq

/-- Function `should_remove_file` from ossify.py (lines 64-80): on a read failure
the exception is caught and the function returns `False`; otherwise it
returns the truth of `first_comment and marker in first_comment`, where
Python truthiness makes both `None` and the empty string falsy. -/
def should_remove_file (r : ReadResult) : Bool :=
  match r with
  | .err => false
  | .ok content =>
    match find_first_comment_block content with
    | none => false
    | some c => !c.isEmpty && sub selMarker c

/-- The `result.action` values of `process_rust_file` (Python strings
`none`, `file_removed`, `snippets_removed`). -/
inductive FileAction where
  | noAction
  | file_removed
  | snippets_removed
deriving DecidableEq

/-- The pure part of the `process_rust_file` result dictionary. -/
structure ProcessResult where
  action : FileAction
  snippets_removed : Nat
deriving DecidableEq

/-- A destructive file-system action the Mutator would perform:
`os.remove` or rewriting the file with new content. -/
inductive Mutation where
  | delete
  | write (content : List Char)
deriving DecidableEq

/-- Function `process_rust_file(file_path, dry_run)` from ossify.py (lines
133-170), with the file's decoded content supplied directly (the two
reads of the same path are modelled as one given content).  Returns the
result record together with the list of destructive actions performed;
under `dry_run` no destructive action is performed. -/
def process_rust_file (content : List Char) (dry_run : Bool) : ProcessResult × List Mutation :=
  if should_remove_file (ReadResult.ok content) then
    ({ action := FileAction.file_removed, snippets_removed := 0 },
      if dry_run then [] else [Mutation.delete])
  else
    if 0 < (remove_proprietary_snippets content).2 then
      ({ action := FileAction.snippets_removed,
         snippets_removed := (remove_proprietary_snippets content).2 },
        if dry_run then [] else [Mutation.write (remove_proprietary_snippets content).1])
    else ({ action := FileAction.noAction, snippets_removed := 0 }, [])

/-- Relation `Excision ls (out, n)`: holds when `out` is obtained from the lines
`ls` by deleting `n` contiguous spans, each beginning at a line containing
the begin marker, self-delimited (`collectSpan` reproduces the span and
stops inside it), and license-marked; every line outside those spans is
kept byte-for-byte in its original relative order. -/
inductive Excision : List (List Char) → List (List Char) × Nat → Prop where
  | nil : Excision [] ([], 0)
  | keep (l : List Char) (ls out : List (List Char)) (n : Nat) :
      Excision ls (out, n) → Excision (l :: ls) (l :: out, n)
  | drop (l : List Char) (tl rest out : List (List Char)) (n : Nat) :
      hasBegin l = true → hasSEL (l :: tl) = true →
      collectSpan (l :: tl) = (l :: tl, []) →
      Excision rest (out, n) → Excision ((l :: tl) ++ rest) (out, n + 1)

/-! ### Basic facts about `pfx`, `sub`, `splitNL`, `joinNL` -/

theorem pfx_iff : ∀ a b : List Char, pfx a b = true ↔ a <+: b := by
  intro a
  induction a with
  | nil => intro b; simp [pfx]
  | cons c as ih =>
    intro b
    cases b with
    | nil => simp [pfx]
    | cons d bs => simp [pfx, List.cons_prefix_cons, ih, And.comm]

theorem sub_iff (m : List Char) : ∀ s, sub m s = true ↔ m <:+: s := by
  intro s
  induction s with
  | nil => simp [sub, List.infix_nil, List.isEmpty_iff]
  | cons c cs ih => simp [sub, List.infix_cons_iff, pfx_iff, ih]

theorem joinNL_cons (l : List Char) (ls : List (List Char)) (h : ls ≠ []) :
    joinNL (l :: ls) = l ++ '\n' :: joinNL ls := by
  cases ls with
  | nil => exact absurd rfl h
  | cons l2 ls2 => rfl

theorem joinNL_suffix (l : List Char) (ls : List (List Char)) :
    joinNL ls <:+ joinNL (l :: ls) := by
  cases ls with
  | nil => exact ⟨joinNL [l], by simp [joinNL]⟩
  | cons l2 ls2 =>
    refine ⟨l ++ ['\n'], ?_⟩
    rw [joinNL_cons l _ (by simp)]
    simp

theorem hasSEL_cons_of (l : List Char) (ls : List (List Char)) (h : hasSEL (l :: ls) = false) :
    hasSEL ls = false := by
  by_contra hc
  rw [Bool.not_eq_false, hasSEL, sub_iff] at hc
  rw [hasSEL, ← Bool.not_eq_true, sub_iff] at h
  exact h (hc.trans (joinNL_suffix l ls).isInfix)

theorem splitNL_ne_nil (s : List Char) : splitNL s ≠ [] := by
  cases s with
  | nil => simp [splitNL]
  | cons c cs =>
    rw [splitNL]
    by_cases h : c = '\n'
    · simp [h]
    · simp only [if_neg h]
      cases hs : splitNL cs <;> simp

theorem joinNL_splitNL (s : List Char) : joinNL (splitNL s) = s := by
  induction s with
  | nil => rfl
  | cons c cs ih =>
    rw [splitNL]
    by_cases h : c = '\n'
    · rw [if_pos h, joinNL_cons _ _ (splitNL_ne_nil cs), ih, h]
      rfl
    · rw [if_neg h]
      rcases hs : splitNL cs with _ | ⟨l, ls⟩
      · exact absurd hs (splitNL_ne_nil cs)
      · rw [hs] at ih
        cases ls with
        | nil => simpa [joinNL] using ih
        | cons l2 ls2 =>
          rw [joinNL_cons _ _ (by simp)] at ih ⊢
          simpa using ih

theorem splitNL_no_newline (s : List Char) : ∀ l ∈ splitNL s, '\n' ∉ l := by
  induction s with
  | nil => simp [splitNL]
  | cons c cs ih =>
    rw [splitNL]
    by_cases h : c = '\n'
    · rw [if_pos h]
      intro l hl
      rcases List.mem_cons.mp hl with rfl | hl
      · simp
      · exact ih l hl
    · rw [if_neg h]
      rcases hs : splitNL cs with _ | ⟨l0, ls⟩
      · exact absurd hs (splitNL_ne_nil cs)
      · intro l hl
        rcases List.mem_cons.mp hl with rfl | hl
        · intro hmem
          rcases List.mem_cons.mp hmem with rfl | hmem
          · exact h rfl
          · exact ih l0 (hs ▸ List.mem_cons_self _ _) hmem
        · exact ih l (hs ▸ List.mem_cons_of_mem _ hl)

theorem splitNL_of_no_newline (l : List Char) (h : '\n' ∉ l) : splitNL l = [l] := by
  induction l with
  | nil => rfl
  | cons c cs ih =>
    have hc : ¬(c = '\n') := fun hc => h (hc ▸ List.mem_cons_self _ _)
    rw [splitNL, if_neg hc, ih (fun hm => h (List.mem_cons_of_mem _ hm))]

theorem splitNL_append_newline (l r : List Char) (h : '\n' ∉ l) :
    splitNL (l ++ '\n' :: r) = l :: splitNL r := by
  induction l with
  | nil => simp [splitNL]
  | cons c cs ih =>
    have hc : ¬(c = '\n') := fun hc => h (hc ▸ List.mem_cons_self _ _)
    rw [List.cons_append, splitNL, if_neg hc, ih (fun hm => h (List.mem_cons_of_mem _ hm))]

theorem splitNL_joinNL (ls : List (List Char)) (hne : ls ≠ [])
    (h : ∀ l ∈ ls, '\n' ∉ l) : splitNL (joinNL ls) = ls := by
  induction ls with
  | nil => exact absurd rfl hne
  | cons l ls ih =>
    cases ls with
    | nil => exact splitNL_of_no_newline l (h l (List.mem_cons_self _ _))
    | cons l2 ls2 =>
      rw [joinNL_cons _ _ (by simp),
        splitNL_append_newline _ _ (h l (List.mem_cons_self _ _)),
        ih (by simp) (fun x hx => h x (List.mem_cons_of_mem _ hx))]

/-! ### Structure of `collectSpan` -/

theorem collectSpan_append : ∀ xs : List (List Char), (collectSpan xs).1 ++ (collectSpan xs).2 = xs := by
  intro xs
  induction xs with
  | nil => rfl
  | cons l ls ih =>
    rw [collectSpan]
    by_cases h : hasEnd l = true
    · simp [h]
    · simp only [h, if_neg, Bool.false_eq_true, not_false_eq_true, List.cons_append, ih]

theorem collectSpan_length (xs : List (List Char)) :
    (collectSpan xs).1.length + (collectSpan xs).2.length = xs.length := by
  rw [← List.length_append, collectSpan_append]

theorem collectSpan_snd_le (xs : List (List Char)) :
    (collectSpan xs).2.length ≤ xs.length := by
  rw [← collectSpan_length xs]
  exact Nat.le_add_left _ _

theorem collectSpan_snd_lt (l : List Char) (ls : List (List Char)) :
    (collectSpan (l :: ls)).2.length ≤ ls.length := by
  rw [collectSpan]
  by_cases h : hasEnd l = true
  · simp [h]
  · simp only [h, Bool.false_eq_true, not_false_eq_true, if_neg]
    exact collectSpan_snd_le ls

/-- No line of `xs` contains the end marker: the whole input is collected. -/
theorem collectSpan_noEnd (xs : List (List Char)) (h : ∀ x ∈ xs, hasEnd x = false) :
    collectSpan xs = (xs, []) := by
  induction xs with
  | nil => rfl
  | cons l ls ih =>
    rw [collectSpan, if_neg (by simp [h l (List.mem_cons_self _ _)]),
      ih (fun x hx => h x (List.mem_cons_of_mem _ hx))]

/-- The span stops exactly at the first line containing the end marker. -/
theorem collectSpan_noEnd_append (xs : List (List Char)) (e : List Char) (ys : List (List Char))
    (h : ∀ x ∈ xs, hasEnd x = false) (he : hasEnd e = true) :
    collectSpan (xs ++ e :: ys) = (xs ++ [e], ys) := by
  induction xs with
  | nil => simp [collectSpan, he]
  | cons l ls ih =>
    rw [List.cons_append, collectSpan, if_neg (by simp [h l (List.mem_cons_self _ _)]),
      ih (fun x hx => h x (List.mem_cons_of_mem _ hx))]
    simp

/-- Inversion: a collected span is either the whole input with no end
marker anywhere, or it consists of end-marker-free lines followed by the
first end-marker line. -/
theorem collectSpan_inv : ∀ xs : List (List Char),
    ((∀ x ∈ (collectSpan xs).1, hasEnd x = false) ∧ (collectSpan xs).2 = [] ∧ (collectSpan xs).1 = xs) ∨
    (∃ s0 e, (collectSpan xs).1 = s0 ++ [e] ∧ (∀ x ∈ s0, hasEnd x = false) ∧ hasEnd e = true) := by
  intro xs
  induction xs with
  | nil => exact Or.inl ⟨by simp [collectSpan], rfl, rfl⟩
  | cons l ls ih =>
    by_cases h : hasEnd l = true
    · refine Or.inr ⟨[], l, ?_, by simp, h⟩
      simp [collectSpan, h]
    · have hb : hasEnd l = false := by simpa using h
      rw [collectSpan, if_neg (by simp [hb])]
      rcases ih with ⟨h1, h2, h3⟩ | ⟨s0, e, h1, h2, h3⟩
      · refine Or.inl ⟨?_, by simpa using h2, by simpa using h3⟩
        intro x hx
        rcases List.mem_cons.mp hx with rfl | hx
        · exact hb
        · exact h1 x hx
      · refine Or.inr ⟨l :: s0, e, by simp [h1], ?_, h3⟩
        intro x hx
        rcases List.mem_cons.mp hx with rfl | hx
        · exact hb
        · exact h2 x hx

/-- A collected span collects to itself (used to recognise spans of the
output as spans again). -/
theorem collectSpan_self (xs : List (List Char)) :
    collectSpan (collectSpan xs).1 = ((collectSpan xs).1, []) := by
  rcases collectSpan_inv xs with ⟨h1, _, _⟩ | ⟨s0, e, h1, h2, h3⟩
  · exact collectSpan_noEnd _ h1
  · rw [h1]
    have : s0 ++ [e] = s0 ++ e :: [] := rfl
    rw [this, collectSpan_noEnd_append s0 e [] h2 h3]

/-! ### Fuel sufficiency and the step equation of the scan loop -/

theorem scanF_nil (n : Nat) : scanF n [] = ([], 0) := by
  cases n <;> rfl

theorem scanF_succ_cons (n : Nat) (l : List Char) (ls : List (List Char)) :
    scanF (n + 1) (l :: ls) =
      if hasBegin l then
        if hasSEL (collectSpan (l :: ls)).1 then
          ((scanF n (collectSpan (l :: ls)).2).1, (scanF n (collectSpan (l :: ls)).2).2 + 1)
        else (l :: (scanF n ls).1, (scanF n ls).2)
      else (l :: (scanF n ls).1, (scanF n ls).2) := rfl

/-- Any two sufficient iteration budgets give the same scan result: the
loop finishes within `ls.length` iterations on every input. -/
theorem scanF_fuel2 : ∀ n m : Nat, ∀ ls : List (List Char),
    ls.length ≤ n → ls.length ≤ m → scanF n ls = scanF m ls := by
  intro n
  induction n with
  | zero =>
    intro m ls h _
    rw [List.length_eq_zero.mp (Nat.le_zero.mp h), scanF_nil, scanF_nil]
  | succ n ih =>
    intro m ls h hm
    cases ls with
    | nil => rw [scanF_nil, scanF_nil]
    | cons l tl =>
      cases m with
      | zero => exact absurd hm (by simp)
      | succ m =>
        have htl : tl.length ≤ n := by simpa using h
        have htlm : tl.length ≤ m := by simpa using hm
        have hrest : (collectSpan (l :: tl)).2.length ≤ tl.length := collectSpan_snd_lt l tl
        rw [scanF_succ_cons, scanF_succ_cons,
          ih m tl htl htlm, ih m _ (le_trans hrest htl) (le_trans hrest htlm)]

theorem scanF_fuel (n : Nat) (ls : List (List Char)) (h : ls.length ≤ n) :
    scanF n ls = scan ls :=
  scanF_fuel2 n ls.length ls h le_rfl

theorem scan_nil : scan [] = ([], 0) := rfl

/-- The step equation of the outer scanning loop, stated without fuel. -/
theorem scan_cons (l : List Char) (ls : List (List Char)) :
    scan (l :: ls) =
      if hasBegin l then
        if hasSEL (collectSpan (l :: ls)).1 then
          ((scan ((collectSpan (l :: ls)).2)).1, (scan ((collectSpan (l :: ls)).2)).2 + 1)
        else (l :: (scan ls).1, (scan ls).2)
      else (l :: (scan ls).1, (scan ls).2) := by
  have h1 : scan (l :: ls) = scanF (ls.length + 1) (l :: ls) := rfl
  rw [h1, scanF_succ_cons, scanF_fuel ls.length ls le_rfl,
    scanF_fuel ls.length _ (collectSpan_snd_lt l ls)]

/-! ### Behaviour of the scan loop -/

/-- The output lines are a sublist of the input lines: untouched lines
are reproduced byte-for-byte in their original relative order. -/
theorem scan_sublist_fuel : ∀ n : Nat, ∀ ls : List (List Char), ls.length ≤ n →
    (scan ls).1.Sublist ls := by
  intro n
  induction n with
  | zero =>
    intro ls h
    rw [List.length_eq_zero.mp (Nat.le_zero.mp h)]
    exact List.Sublist.refl _
  | succ n ih =>
    intro ls h
    cases ls with
    | nil => exact List.Sublist.refl _
    | cons l tl =>
      have htl : tl.length ≤ n := by simpa using h
      rw [scan_cons]
      by_cases hb : hasBegin l = true
      · by_cases hs : hasSEL (collectSpan (l :: tl)).1 = true
        · rw [if_pos hb, if_pos hs]
          have h1 : (scan ((collectSpan (l :: tl)).2)).1.Sublist ((collectSpan (l :: tl)).2) :=
            ih _ (le_trans (collectSpan_snd_lt l tl) htl)
          have h2 : ((collectSpan (l :: tl)).2).Sublist (l :: tl) := by
            conv_rhs => rw [← collectSpan_append (l :: tl)]
            exact List.sublist_append_right _ _
          exact h1.trans h2
        · rw [if_pos hb, if_neg hs]
          exact List.Sublist.cons₂ l (ih tl htl)
      · rw [if_neg hb]
        exact List.Sublist.cons₂ l (ih tl htl)

/-- Lines without the begin marker pass straight through. -/
theorem scan_append_noBegin : ∀ a rest : List (List Char), (∀ x ∈ a, hasBegin x = false) →
    scan (a ++ rest) = (a ++ (scan rest).1, (scan rest).2) := by
  intro a
  induction a with
  | nil => intro rest _; simp
  | cons l a2 ih =>
    intro rest h
    rw [List.cons_append, scan_cons, if_neg (by simp [h l (List.mem_cons_self _ _)]),
      ih rest (fun x hx => h x (List.mem_cons_of_mem _ hx))]
    simp

/-- An input with no begin marker anywhere is returned unchanged with
count zero. -/
theorem scan_noBegin (ls : List (List Char)) (h : ∀ x ∈ ls, hasBegin x = false) :
    scan ls = (ls, 0) := by
  have := scan_append_noBegin ls [] h
  simpa [scan_nil] using this

/-- A collected span whose joined text lacks the license marker is
emitted in full: the scan then continues after the span.  (The Python
loop only re-emits the begin line and rescans the span's interior, but
every sub-span it finds there ends at the same first end-marker line and
is therefore license-free as well, so the whole span passes through.) -/
theorem scan_spanKept : ∀ xs : List (List Char), hasSEL (collectSpan xs).1 = false →
    scan xs = ((collectSpan xs).1 ++ (scan ((collectSpan xs).2)).1,
      (scan ((collectSpan xs).2)).2) := by
  intro xs
  induction xs with
  | nil => intro _; simp [collectSpan, scan_nil]
  | cons x tl ih =>
    intro h
    by_cases he : hasEnd x = true
    · have hc : collectSpan (x :: tl) = ([x], tl) := by rw [collectSpan, if_pos he]
      rw [hc] at h ⊢
      rw [scan_cons]
      by_cases hbx : hasBegin x = true
      · rw [if_pos hbx, hc, if_neg (by simp [h])]
        simp
      · rw [if_neg hbx]
        simp
    · have he' : hasEnd x = false := by simpa using he
      have hc : collectSpan (x :: tl) = (x :: (collectSpan tl).1, (collectSpan tl).2) := by
        rw [collectSpan, if_neg he]
      rw [hc] at h ⊢
      have h2 : hasSEL (collectSpan tl).1 = false := hasSEL_cons_of _ _ h
      rw [scan_cons]
      by_cases hbx : hasBegin x = true
      · rw [if_pos hbx, hc, if_neg (by simp [h]), ih h2]
        simp
      · rw [if_neg hbx, ih h2]
        simp

/-- A scan that removed nothing changed nothing. -/
theorem scan_count0_fuel : ∀ n : Nat, ∀ ls : List (List Char), ls.length ≤ n →
    (scan ls).2 = 0 → (scan ls).1 = ls := by
  intro n
  induction n with
  | zero =>
    intro ls h _
    rw [List.length_eq_zero.mp (Nat.le_zero.mp h)]
    rfl
  | succ n ih =>
    intro ls h
    cases ls with
    | nil => intro _; rfl
    | cons l tl =>
      have htl : tl.length ≤ n := by simpa using h
      rw [scan_cons]
      by_cases hb : hasBegin l = true
      · by_cases hs : hasSEL (collectSpan (l :: tl)).1 = true
        · rw [if_pos hb, if_pos hs]
          intro hzero
          exact absurd hzero (by simp)
        · rw [if_pos hb, if_neg hs]
          intro hzero
          simp only at hzero
          simp [ih tl htl hzero]
      · rw [if_neg hb]
        intro hzero
        simp only at hzero
        simp [ih tl htl hzero]

/-- Scanning is idempotent at the line level: rescanning the output of a
scan reproduces it unchanged with count `0`. -/
theorem scan_idem_fuel : ∀ n : Nat, ∀ ls : List (List Char), ls.length ≤ n →
    scan ((scan ls).1) = ((scan ls).1, 0) := by
  intro n
  induction n with
  | zero =>
    intro ls h
    rw [List.length_eq_zero.mp (Nat.le_zero.mp h)]
    rfl
  | succ n ih =>
    intro ls h
    cases ls with
    | nil => rfl
    | cons l tl =>
      have htl : tl.length ≤ n := by simpa using h
      by_cases hb : hasBegin l = true
      · by_cases hs : hasSEL (collectSpan (l :: tl)).1 = true
        · -- the span is removed; the result is the scan of the remainder
          have hout : scan (l :: tl) = ((scan ((collectSpan (l :: tl)).2)).1,
              (scan ((collectSpan (l :: tl)).2)).2 + 1) := by
            rw [scan_cons, if_pos hb, if_pos hs]
          rw [hout]
          exact ih _ (le_trans (collectSpan_snd_lt l tl) htl)
        · -- the span is kept
          have hs' : hasSEL (collectSpan (l :: tl)).1 = false := by simpa using hs
          have hout : scan (l :: tl) = (l :: (scan tl).1, (scan tl).2) := by
            rw [scan_cons, if_pos hb, if_neg hs]
          rw [hout]
          show scan (l :: (scan tl).1) = (l :: (scan tl).1, 0)
          by_cases he : hasEnd l = true
          · -- the begin line closes its own span: span = [l]
            have hcl : collectSpan (l :: tl) = ([l], tl) := by rw [collectSpan, if_pos he]
            rw [hcl] at hs'
            have hco : collectSpan (l :: (scan tl).1) = ([l], (scan tl).1) := by
              rw [collectSpan, if_pos he]
            rw [scan_cons, if_pos hb, hco, if_neg (by simp [hs']), ih tl htl]
          · have he' : hasEnd l = false := by simpa using he
            have hcl : collectSpan (l :: tl) = (l :: (collectSpan tl).1, (collectSpan tl).2) := by
              rw [collectSpan, if_neg he]
            rw [hcl] at hs'
            have hstl : hasSEL (collectSpan tl).1 = false := hasSEL_cons_of _ _ hs'
            have hF : scan tl = ((collectSpan tl).1 ++ (scan ((collectSpan tl).2)).1,
                (scan ((collectSpan tl).2)).2) := scan_spanKept tl hstl
            have hrlen : (collectSpan tl).2.length ≤ n := le_trans (collectSpan_snd_le tl) htl
            have hw : scan ((scan ((collectSpan tl).2)).1) = ((scan ((collectSpan tl).2)).1, 0) :=
              ih _ hrlen
            rcases collectSpan_inv tl with ⟨_, h2, h3⟩ | ⟨s0, e, h1, h2, h3⟩
            · -- unterminated tail span: the whole remainder was kept
              rw [h2, h3, scan_nil] at hF
              simp only [List.append_nil] at hF
              rw [hF]
              show scan (l :: tl) = (l :: tl, 0)
              rw [scan_cons, if_pos hb, if_neg hs, hF]
            · -- terminated span s0 ++ [e] followed by the scanned remainder
              rw [h1] at hF hstl hs'
              rw [hF]
              show scan (l :: ((s0 ++ [e]) ++ (scan ((collectSpan tl).2)).1)) =
                (l :: ((s0 ++ [e]) ++ (scan ((collectSpan tl).2)).1), 0)
              have hassoc : (s0 ++ [e]) ++ (scan ((collectSpan tl).2)).1 =
                  s0 ++ e :: (scan ((collectSpan tl).2)).1 := by simp
              have hG : collectSpan ((s0 ++ [e]) ++ (scan ((collectSpan tl).2)).1) =
                  (s0 ++ [e], (scan ((collectSpan tl).2)).1) := by
                rw [hassoc]
                exact collectSpan_noEnd_append s0 e _ h2 h3
              have hco : collectSpan (l :: ((s0 ++ [e]) ++ (scan ((collectSpan tl).2)).1)) =
                  (l :: (s0 ++ [e]), (scan ((collectSpan tl).2)).1) := by
                rw [collectSpan, if_neg he, hG]
              have hkept : hasSEL
                  (collectSpan ((s0 ++ [e]) ++ (scan ((collectSpan tl).2)).1)).1 = false := by
                rw [hG]
                exact hstl
              have hSK := scan_spanKept _ hkept
              rw [hG] at hSK
              rw [scan_cons, if_pos hb, hco, if_neg (by simp [hs']), hSK, hw]
      · -- no begin marker: the line passes through
        have hout : scan (l :: tl) = (l :: (scan tl).1, (scan tl).2) := by
          rw [scan_cons, if_neg hb]
        rw [hout]
        show scan (l :: (scan tl).1) = (l :: (scan tl).1, 0)
        rw [scan_cons, if_neg hb, ih tl htl]

/-! ### The pass-through decomposition relation (claim C4) -/

theorem collectSpan_fst_cons (l : List Char) (ls : List (List Char)) :
    ∃ t, (collectSpan (l :: ls)).1 = l :: t := by
  rw [collectSpan]
  by_cases h : hasEnd l = true
  · exact ⟨[], by rw [if_pos h]⟩
  · exact ⟨(collectSpan ls).1, by rw [if_neg h]⟩

/-- The scan realises an excision decomposition of its input. -/
theorem scan_excision_fuel : ∀ n : Nat, ∀ ls : List (List Char), ls.length ≤ n →
    Excision ls (scan ls) := by
  intro n
  induction n with
  | zero =>
    intro ls h
    rw [List.length_eq_zero.mp (Nat.le_zero.mp h)]
    exact Excision.nil
  | succ n ih =>
    intro ls h
    cases ls with
    | nil => exact Excision.nil
    | cons l tl =>
      have htl : tl.length ≤ n := by simpa using h
      by_cases hb : hasBegin l = true
      · by_cases hs : hasSEL (collectSpan (l :: tl)).1 = true
        · obtain ⟨t, ht⟩ := collectSpan_fst_cons l tl
          have hdecomp : (l :: t) ++ (collectSpan (l :: tl)).2 = l :: tl := by
            rw [← ht]
            exact collectSpan_append (l :: tl)
          have hself : collectSpan (l :: t) = (l :: t, []) := by
            rw [← ht]
            exact collectSpan_self (l :: tl)
          have hout : scan (l :: tl) = ((scan ((collectSpan (l :: tl)).2)).1,
              (scan ((collectSpan (l :: tl)).2)).2 + 1) := by
            rw [scan_cons, if_pos hb, if_pos hs]
          rw [hout]
          have hdrop := Excision.drop l t ((collectSpan (l :: tl)).2) _ _ hb (ht ▸ hs) hself
            (ih _ (le_trans (collectSpan_snd_lt l tl) htl))
          rwa [hdecomp] at hdrop
        · have hout : scan (l :: tl) = (l :: (scan tl).1, (scan tl).2) := by
            rw [scan_cons, if_pos hb, if_neg hs]
          rw [hout]
          exact Excision.keep l tl _ _ (ih tl htl)
      · have hout : scan (l :: tl) = (l :: (scan tl).1, (scan tl).2) := by
          rw [scan_cons, if_neg hb]
        rw [hout]
        exact Excision.keep l tl _ _ (ih tl htl)

/-! ### Characterisations for the comment-block detector (claim C7) -/

theorem takeBlock_eq : ∀ ls : List (List Char),
    takeBlock ls = (ls.findIdx? (fun l => sub blockCloseTok l)).elim
      ls (fun k => ls.take (k + 1)) := by
  intro ls
  induction ls with
  | nil => rfl
  | cons l tl ih =>
    rw [takeBlock, List.findIdx?_cons]
    by_cases h : sub blockCloseTok l = true
    · rw [if_pos h]
      simp [h, Option.elim]
    · rw [if_neg h, ih]
      simp only [h, if_false, Bool.false_eq_true]
      cases hf : tl.findIdx? (fun l => sub blockCloseTok l) <;> simp [hf, Option.elim]

theorem takeLineRun_eq : ∀ ls : List (List Char),
    takeLineRun ls = ls.takeWhile (fun l => pfx lineTok (pyStrip l) || (pyStrip l).isEmpty) := by
  intro ls
  induction ls with
  | nil => rfl
  | cons l tl ih =>
    rw [takeLineRun, List.takeWhile_cons]
    by_cases h : (pfx lineTok (pyStrip l) || (pyStrip l).isEmpty) = true
    · rw [if_pos h, if_pos h, ih]
    · rw [if_neg h, if_neg h]

/-! ### Claim theorems -/

/-- Claim C1: excision is idempotent.  For every input text, applying
`remove_proprietary_snippets` to the `newContent` produced by a first
application returns that same text again together with a removed count
of `0`. -/
theorem excision_idempotent (content : List Char) :
    remove_proprietary_snippets ((remove_proprietary_snippets content).1) =
      ((remove_proprietary_snippets content).1, 0) := by
  have hnl : ∀ l ∈ (scan (splitNL content)).1, '\n' ∉ l := fun l hl =>
    splitNL_no_newline content l
      ((scan_sublist_fuel (splitNL content).length _ le_rfl).subset hl)
  show (joinNL (scan (splitNL (joinNL (scan (splitNL content)).1))).1,
      (scan (splitNL (joinNL (scan (splitNL content)).1))).2) =
    (joinNL (scan (splitNL content)).1, 0)
  by_cases hnil : (scan (splitNL content)).1 = []
  · rw [hnil]
    have h1 : scan [([] : List Char)] = ([[]], 0) := by
      refine scan_noBegin [[]] ?_
      intro x hx
      rw [List.mem_singleton.mp hx]
      decide
    show (joinNL (scan [[]]).1, (scan [[]]).2) = ([], 0)
    rw [h1]
    rfl
  · rw [splitNL_joinNL _ hnil hnl,
      scan_idem_fuel (splitNL content).length (splitNL content) le_rfl]

/-- Claim C2: whole-file gate precedence.  When `should_remove_file`
holds for a file's content, `process_rust_file` reports the
`file_removed` action with a snippets-removed count of `0` and performs
no rewrite (the only destructive action, outside dry-run, is the
deletion); the decision short-circuits before any snippet scanning in
the source, so snippet excision is never invoked on that content. -/
theorem whole_file_gate_precedence (content : List Char) (dry_run : Bool)
    (h : should_remove_file (ReadResult.ok content) = true) :
    process_rust_file content dry_run =
      ({ action := FileAction.file_removed, snippets_removed := 0 },
        if dry_run then [] else [Mutation.delete]) := by
  unfold process_rust_file
  rw [if_pos h]

theorem whole_file_gate_precedence_witness :
    process_rust_file "// SPDX-License-Identifier: LicenseRef-SEL\nfn main()".toList false =
      ({ action := FileAction.file_removed, snippets_removed := 0 }, [Mutation.delete]) :=
  whole_file_gate_precedence "// SPDX-License-Identifier: LicenseRef-SEL\nfn main()".toList
    false (by decide)

/-- Claim C8: preview/real equivalence.  The result record (action and
snippets-removed count) computed by `process_rust_file` is identical for
any two values of the dry-run flag; with the flag set, no destructive
action is performed. -/
theorem preview_real_equivalence (content : List Char) (d1 d2 : Bool) :
    (process_rust_file content d1).1 = (process_rust_file content d2).1 ∧
      (process_rust_file content true).2 = [] := by
  unfold process_rust_file
  constructor <;> split_ifs <;> simp_all

/-- Claim C9: termination and progress of the scanning loops.  The inner
span-collection loop visits each line of its input exactly once (the
span and the remainder partition the input), the outer loop strictly
advances past at least one line per iteration (the remainder after a
span is strictly shorter than the input), and any iteration budget of at
least the number of lines yields the same, completed scan -- in
particular the scan is a total function, also on inputs whose
begin-marker has no matching end-marker. -/
theorem scan_termination_progress (l : List Char) (ls : List (List Char)) (n : Nat) :
    (collectSpan (l :: ls)).1.length + (collectSpan (l :: ls)).2.length = (l :: ls).length ∧
      (collectSpan (l :: ls)).2.length < (l :: ls).length ∧
      ((l :: ls).length ≤ n → scanF n (l :: ls) = scan (l :: ls)) :=
  ⟨collectSpan_length (l :: ls), Nat.lt_succ_of_le (collectSpan_snd_lt l ls),
    fun h => scanF_fuel n (l :: ls) h⟩

theorem scan_termination_progress_witness :
    (collectSpan ["// SPDX-SnippetBegin x".toList]).1.length +
        (collectSpan ["// SPDX-SnippetBegin x".toList]).2.length = 1 ∧
      (collectSpan ["// SPDX-SnippetBegin x".toList]).2.length < 1 ∧
      scanF 7 ["// SPDX-SnippetBegin x".toList] = scan ["// SPDX-SnippetBegin x".toList] :=
  ⟨(scan_termination_progress "// SPDX-SnippetBegin x".toList [] 7).1,
    (scan_termination_progress "// SPDX-SnippetBegin x".toList [] 7).2.1,
    (scan_termination_progress "// SPDX-SnippetBegin x".toList [] 7).2.2 (by decide)⟩

/-- Claim C10: a removed count of `0` means the returned content is
exactly the input text, so a rewrite is needed only when the count is
positive. -/
theorem count_zero_identity (content : List Char)
    (h : (remove_proprietary_snippets content).2 = 0) :
    (remove_proprietary_snippets content).1 = content := by
  have h1 : (scan (splitNL content)).1 = splitNL content :=
    scan_count0_fuel (splitNL content).length _ le_rfl h
  show joinNL (scan (splitNL content)).1 = content
  rw [h1, joinNL_splitNL]

theorem count_zero_identity_witness :
    (remove_proprietary_snippets "fn main()\nfn other()".toList).1 =
      "fn main()\nfn other()".toList :=
  count_zero_identity "fn main()\nfn other()".toList (by decide)

/-- Claim C3: unterminated-span handling.  For a content whose lines are
`pre ++ l :: post` with `l` the first begin-marker line and no end-marker
line from `l` onwards, excision returns a value for every such input (it
is a total function); when the trailing span contains the license marker
the output is the text of the lines before the begin-marker line and the
span counts as one removal, and otherwise every line of the span is
preserved through end-of-file and nothing is removed. -/
theorem unterminated_span_behavior (content : List Char) (pre post : List (List Char))
    (l : List Char)
    (hsplit : splitNL content = pre ++ l :: post)
    (hpre : ∀ x ∈ pre, hasBegin x = false)
    (hb : hasBegin l = true)
    (hend : ∀ x ∈ l :: post, hasEnd x = false) :
    remove_proprietary_snippets content =
      if hasSEL (l :: post) then (joinNL pre, 1) else (content, 0) := by
  have hcs : collectSpan (l :: post) = (l :: post, []) := collectSpan_noEnd _ hend
  have h1 : (collectSpan (l :: post)).1 = l :: post := by rw [hcs]
  have h2 : (collectSpan (l :: post)).2 = [] := by rw [hcs]
  show (joinNL (scan (splitNL content)).1, (scan (splitNL content)).2) = _
  rw [hsplit, scan_append_noBegin pre _ hpre]
  by_cases hsel : hasSEL (l :: post) = true
  · rw [if_pos hsel]
    have hrm : scan (l :: post) = ([], 1) := by
      rw [scan_cons, if_pos hb, h1, if_pos hsel, h2, scan_nil]
    rw [hrm]
    simp
  · have hsel2 : hasSEL (l :: post) = false := by simpa using hsel
    rw [if_neg hsel]
    have hkept : hasSEL (collectSpan (l :: post)).1 = false := by rw [h1]; exact hsel2
    have hSK := scan_spanKept (l :: post) hkept
    rw [h1, h2, scan_nil] at hSK
    simp only [List.append_nil] at hSK
    rw [hSK]
    show (joinNL (pre ++ l :: post), 0) = (content, 0)
    rw [← hsplit, joinNL_splitNL]

theorem unterminated_span_behavior_witness :
    remove_proprietary_snippets
        "keep\n// SPDX-SnippetBegin\n// SPDX-License-Identifier: LicenseRef-SEL".toList =
      ("keep".toList, 1) :=
  unterminated_span_behavior
    "keep\n// SPDX-SnippetBegin\n// SPDX-License-Identifier: LicenseRef-SEL".toList
    ["keep".toList] ["// SPDX-License-Identifier: LicenseRef-SEL".toList]
    "// SPDX-SnippetBegin".toList (by decide) (by decide) (by decide) (by decide)

/-- Claim C4: pass-through invariant.  The scan realises an excision
decomposition of the input lines (`Excision`): the output is the input
with `n` whole license-marked spans deleted, so every line not belonging
to a removed span appears in the output byte-for-byte unchanged and in
its original relative order; moreover the output lines form a sublist of
the input lines. -/
theorem pass_through_invariant (content : List Char) :
    Excision (splitNL content) (scan (splitNL content)) ∧
      ((scan (splitNL content)).1).Sublist (splitNL content) :=
  ⟨scan_excision_fuel (splitNL content).length _ le_rfl,
    scan_sublist_fuel (splitNL content).length _ le_rfl⟩

/-- Two non-overlapping spans, the first license-free and the second
license-marked, separated and surrounded by begin-marker-free lines: the
scan keeps the first span intact, removes the second, and counts one
removal. -/
theorem scan_two_spans (a b c : List (List Char)) (b1 e1 b2 e2 : List Char)
    (m1 m2 : List (List Char))
    (ha : ∀ x ∈ a, hasBegin x = false)
    (hbnb : ∀ x ∈ b, hasBegin x = false)
    (hcnb : ∀ x ∈ c, hasBegin x = false)
    (hne1 : ∀ x ∈ b1 :: m1, hasEnd x = false)
    (he1 : hasEnd e1 = true)
    (hs1 : hasSEL (b1 :: (m1 ++ [e1])) = false)
    (hb2 : hasBegin b2 = true)
    (hne2 : ∀ x ∈ b2 :: m2, hasEnd x = false)
    (he2 : hasEnd e2 = true)
    (hs2 : hasSEL (b2 :: (m2 ++ [e2])) = true) :
    scan (a ++ ((b1 :: (m1 ++ [e1])) ++ (b ++ ((b2 :: (m2 ++ [e2])) ++ c)))) =
      (a ++ ((b1 :: (m1 ++ [e1])) ++ (b ++ c)), 1) := by
  rw [scan_append_noBegin a _ ha]
  have hcs1 : collectSpan ((b1 :: (m1 ++ [e1])) ++ (b ++ ((b2 :: (m2 ++ [e2])) ++ c))) =
      (b1 :: (m1 ++ [e1]), b ++ ((b2 :: (m2 ++ [e2])) ++ c)) := by
    have hr : (b1 :: (m1 ++ [e1])) ++ (b ++ ((b2 :: (m2 ++ [e2])) ++ c)) =
        (b1 :: m1) ++ e1 :: (b ++ ((b2 :: (m2 ++ [e2])) ++ c)) := by simp
    rw [hr, collectSpan_noEnd_append _ _ _ hne1 he1]
    simp
  have hk1 : hasSEL
      (collectSpan ((b1 :: (m1 ++ [e1])) ++ (b ++ ((b2 :: (m2 ++ [e2])) ++ c)))).1 = false := by
    rw [hcs1]
    exact hs1
  have hSK := scan_spanKept _ hk1
  rw [hcs1] at hSK
  rw [hSK, scan_append_noBegin b _ hbnb]
  have hstep : (b2 :: (m2 ++ [e2])) ++ c = b2 :: ((m2 ++ [e2]) ++ c) := by simp
  have hcs2 : collectSpan (b2 :: ((m2 ++ [e2]) ++ c)) = (b2 :: (m2 ++ [e2]), c) := by
    have hr : b2 :: ((m2 ++ [e2]) ++ c) = (b2 :: m2) ++ e2 :: c := by simp
    rw [hr, collectSpan_noEnd_append _ _ _ hne2 he2]
    simp
  have h21 : (collectSpan (b2 :: ((m2 ++ [e2]) ++ c))).1 = b2 :: (m2 ++ [e2]) := by rw [hcs2]
  have h22 : (collectSpan (b2 :: ((m2 ++ [e2]) ++ c))).2 = c := by rw [hcs2]
  have hrm : scan ((b2 :: (m2 ++ [e2])) ++ c) = (c, 1) := by
    rw [hstep, scan_cons, if_pos hb2, h21, if_pos hs2, h22, scan_noBegin c hcnb]
  rw [hrm]

/-- Claim C5: the removed count is the number of spans dropped, not the
number of lines, and spans are evaluated independently: a file with two
independent non-overlapping snippets of which only the second contains
the license marker yields a count of `1`, with the non-marked snippet
(and all surrounding lines) fully intact in the output. -/
theorem independent_spans_count (content : List Char)
    (a b c : List (List Char)) (b1 e1 b2 e2 : List Char) (m1 m2 : List (List Char))
    (hsplit : splitNL content =
      a ++ ((b1 :: (m1 ++ [e1])) ++ (b ++ ((b2 :: (m2 ++ [e2])) ++ c))))
    (ha : ∀ x ∈ a, hasBegin x = false)
    (hbnb : ∀ x ∈ b, hasBegin x = false)
    (hcnb : ∀ x ∈ c, hasBegin x = false)
    (_hb1 : hasBegin b1 = true)
    (hne1 : ∀ x ∈ b1 :: m1, hasEnd x = false)
    (he1 : hasEnd e1 = true)
    (hs1 : hasSEL (b1 :: (m1 ++ [e1])) = false)
    (hb2 : hasBegin b2 = true)
    (hne2 : ∀ x ∈ b2 :: m2, hasEnd x = false)
    (he2 : hasEnd e2 = true)
    (hs2 : hasSEL (b2 :: (m2 ++ [e2])) = true) :
    remove_proprietary_snippets content =
      (joinNL (a ++ ((b1 :: (m1 ++ [e1])) ++ (b ++ c))), 1) := by
  show (joinNL (scan (splitNL content)).1, (scan (splitNL content)).2) = _
  rw [hsplit, scan_two_spans a b c b1 e1 b2 e2 m1 m2 ha hbnb hcnb hne1 he1 hs1 hb2 hne2 he2 hs2]

theorem independent_spans_count_witness :
    remove_proprietary_snippets
        ("fn a()\n// SPDX-SnippetBegin\nfn keep()\n// SPDX-SnippetEnd\nmid\n" ++
          "// SPDX-SnippetBegin\n// SPDX-License-Identifier: LicenseRef-SEL\n" ++
          "// SPDX-SnippetEnd\nfn z()").toList =
      (("fn a()\n// SPDX-SnippetBegin\nfn keep()\n// SPDX-SnippetEnd\nmid\nfn z()").toList, 1) :=
  independent_spans_count
    ("fn a()\n// SPDX-SnippetBegin\nfn keep()\n// SPDX-SnippetEnd\nmid\n" ++
      "// SPDX-SnippetBegin\n// SPDX-License-Identifier: LicenseRef-SEL\n" ++
      "// SPDX-SnippetEnd\nfn z()").toList
    ["fn a()".toList] ["mid".toList] ["fn z()".toList]
    "// SPDX-SnippetBegin".toList "// SPDX-SnippetEnd".toList
    "// SPDX-SnippetBegin".toList "// SPDX-SnippetEnd".toList
    ["fn keep()".toList] ["// SPDX-License-Identifier: LicenseRef-SEL".toList]
    (by decide) (by decide) (by decide) (by decide) (by decide) (by decide)
    (by decide) (by decide) (by decide) (by decide) (by decide) (by decide)

/-- Claim C6: `should_remove_file` returns `true` if and only if the
read succeeded, a leading comment block was found, and the block's text
contains the exact substring `SPDX-License-Identifier: LicenseRef-SEL`;
on a read failure it returns `false` (and, being a total function, it
never throws). -/
theorem should_remove_file_iff (r : ReadResult) :
    should_remove_file r = true ↔
      ∃ c blk, r = ReadResult.ok c ∧ find_first_comment_block c = some blk ∧
        sub selMarker blk = true := by
  cases r with
  | err =>
    rw [show should_remove_file ReadResult.err = false from rfl]
    simp only [Bool.false_eq_true, false_iff]
    rintro ⟨c2, blk2, heq, -, -⟩
    exact ReadResult.noConfusion heq
  | ok c =>
    cases hfc : find_first_comment_block c with
    | none =>
      rw [show should_remove_file (ReadResult.ok c) = false by
        simp [should_remove_file, hfc]]
      simp only [Bool.false_eq_true, false_iff]
      rintro ⟨c2, blk2, heq, hfind, -⟩
      injection heq with h
      subst h
      rw [hfc] at hfind
      exact Option.noConfusion hfind
    | some blk =>
      rw [show should_remove_file (ReadResult.ok c) = (!blk.isEmpty && sub selMarker blk) by
        simp [should_remove_file, hfc]]
      constructor
      · intro h
        have h2 : (!blk.isEmpty) = true ∧ sub selMarker blk = true := by
          simpa using h
        exact ⟨c, blk, rfl, hfc, h2.2⟩
      · rintro ⟨c2, blk2, heq, hfind, hsub⟩
        injection heq with h
        subst h
        rw [hfc] at hfind
        injection hfind with h2
        subst h2
        rcases blk with _ | ⟨ch, chs⟩
        · exact absurd hsub (by decide)
        · simp [hsub]

/-- Claim C7: comment-block detection.  The source detector agrees, on
every content, with the spec-side formulation: after trimming and
splitting, a first line starting with the block-comment-open token
yields the lines through the first close-token line inclusive (all lines
when no close token occurs); otherwise a first line starting with the
line-comment token yields the maximal leading run of lines whose trimmed
form starts with the line-comment token or is empty; otherwise no block
is returned. -/
theorem comment_block_detection (content : List Char) :
    find_first_comment_block content = find_first_comment_block_spec content := by
  unfold find_first_comment_block find_first_comment_block_spec
  cases hs : splitNL (pyStrip content) with
  | nil => rfl
  | cons l0 rest =>
    show (if pfx blockOpenTok (pyStrip l0) then some (joinNL (takeBlock (l0 :: rest)))
        else if pfx lineTok (pyStrip l0) then some (joinNL (takeLineRun (l0 :: rest)))
        else none) =
      (if pfx blockOpenTok (pyStrip l0) then
          some (joinNL (((l0 :: rest).findIdx? (fun l => sub blockCloseTok l)).elim
            (l0 :: rest) (fun k => (l0 :: rest).take (k + 1))))
        else if pfx lineTok (pyStrip l0) then
          some (joinNL ((l0 :: rest).takeWhile
            (fun l => pfx lineTok (pyStrip l) || (pyStrip l).isEmpty)))
        else none)
    rw [takeBlock_eq, takeLineRun_eq]
